import Mathlib

/-!
Verification of the multipart-parser repository.

Bytes are modelled as `Nat` (values of a `Uint8Array` cell are < 256); byte
sequences are `List Nat`; a stream of chunks is a `List (List Nat)`.

The incremental boundary-scanning state machine is modelled twice:
* `runChunked` consumes a list of chunks through a buffer, pulling one chunk
  at a time, exactly as the specification describes the scanner;
* `runFlat` is the same machine run on the fully concatenated body.
The two are proved to agree (`runChunked_eq_runFlat`), which is the
chunk-invariance workhorse.
-/

namespace Multipart

/-! ## Definitions -/

/-- Byte value of CR. -/
def CR : Nat := 13

/-- Byte value of LF. -/
def LF : Nat := 10

/-- Byte value of the dash character. -/
def DASH : Nat := 45

/-- Embedding of `concatChunks` from utils.ts: a single chunk is returned
as-is, otherwise an output buffer is filled left to right (modelled as a
left fold of appends starting from the empty array). -/
def concatChunks (chunks : List (List Nat)) : List Nat :=
  match chunks with
  | [c] => c
  | cs => cs.foldl (fun acc c => acc ++ c) []

/-- Embedding of `binaryToString` from utils.ts: each byte is mapped to the
UTF-16 code unit with that value (`String.fromCharCode` reduces its argument
modulo 2^16). The JS string is modelled as its list of code units. -/
def binaryToString (binary : List Nat) : List Nat :=
  binary.map (fun b => b % 65536)

/-- Embedding of `stringToBinary` from utils.ts: each code unit is written
into a `Uint8Array` cell (`charCodeAt` returns the code unit; the store
truncates modulo 2^8). -/
def stringToBinary (s : List Nat) : List Nat :=
  s.map (fun c => c % 256)

/-- Occurrence of `pat` in `l` at index `i`. -/
def occursAt (pat l : List Nat) (i : Nat) : Prop :=
  (l.drop i).take pat.length = pat

instance (pat l : List Nat) (i : Nat) : Decidable (occursAt pat l i) := by
  unfold occursAt; infer_instance

/-- Modelled from the spec: the first index at which `pat` occurs in `l`,
if any (the contract of the ChunkBuffer index_of search). -/
def findSub (pat : List Nat) : List Nat → Option Nat
  | [] => if pat = [] then some 0 else none
  | a :: t =>
    if (a :: t).take pat.length = pat then some 0
    else (findSub pat t).map (· + 1)

/-- Modelled from the spec: the linear-whitespace test, space or horizontal
tab. -/
def isLws (b : Nat) : Bool := b == 32 || b == 9

/-- Modelled from the spec: the number of leading linear-whitespace bytes. -/
def lwsCount (l : List Nat) : Nat := (l.takeWhile isLws).length

/-- Modelled from the spec: ASCII case folding of a single byte. -/
def lowerByte (b : Nat) : Nat := if 65 ≤ b ∧ b ≤ 90 then b + 32 else b

/-- Modelled from the spec: ASCII case folding of a byte sequence
(header-name comparison). -/
def lowerBytes (l : List Nat) : List Nat := l.map lowerByte

/-- Modelled from the spec: trim of leading and trailing linear whitespace
(header values). -/
def trimLws (l : List Nat) : List Nat :=
  ((l.dropWhile isLws).reverse.dropWhile isLws).reverse

/-- Modelled from the spec: the header block is split on CRLF into lines
(the parser source for this split is not under src/). -/
def splitLines (block : List Nat) : List (List Nat) :=
  match h : findSub [CR, LF] block with
  | none => [block]
  | some i => block.take i :: splitLines (block.drop (i + 2))
termination_by block.length
decreasing_by
  cases block with
  | nil => simp [findSub] at h
  | cons a t =>
    simp only [List.length_drop, List.length_cons]
    omega

/-- Modelled from the spec: a header line is split at its first colon into a
case-insensitively stored name and an LWS-trimmed value; a line without a
colon is not indexed. -/
def parseHeaderLine (line : List Nat) : Option (List Nat × List Nat) :=
  match findSub [58] line with
  | none => none
  | some i => some (lowerBytes (line.take i), trimLws (line.drop (i + 1)))

/-- Modelled from the spec: the headers of a part, the raw lines plus the
name-indexed fields. -/
structure Headers where
  raw : List (List Nat)
  fields : List (List Nat × List Nat)
deriving DecidableEq, Repr

/-- Modelled from the spec: parse a header block into raw lines and the
name-indexed mapping (lines without a colon are kept raw but not indexed). -/
def parseHeaders (block : List Nat) : Headers :=
  let lines := splitLines block
  ⟨lines, lines.filterMap parseHeaderLine⟩

/-- Modelled from the spec: name-indexed header lookup, folding ASCII case,
first match wins. -/
def headerGet (h : Headers) (name : List Nat) : Option (List Nat) :=
  (h.fields.find? (fun f => f.1 == lowerBytes name)).map (·.2)

/-- Modelled from the spec: a yielded part, its parsed headers and its full
payload bytes (the concatenation of the chunks its body stream yields). -/
structure Part where
  headers : Headers
  payload : List Nat
deriving DecidableEq, Repr

/-- Bytes of the ASCII string content-disposition. -/
def contentDispositionName : List Nat :=
  [99, 111, 110, 116, 101, 110, 116, 45, 100, 105, 115, 112, 111, 115, 105, 116, 105, 111, 110]

/-- Bytes of the ASCII string content-type. -/
def contentTypeName : List Nat :=
  [99, 111, 110, 116, 101, 110, 116, 45, 116, 121, 112, 101]

/-- Bytes of the ASCII string name. -/
def nameKey : List Nat := [110, 97, 109, 101]

/-- Bytes of the ASCII string filename. -/
def filenameKey : List Nat := [102, 105, 108, 101, 110, 97, 109, 101]

/-- Modelled from the spec: split a header value on semicolons (parameter
separators); the structured header-value parser is not under src/. -/
def splitOnSemi (l : List Nat) : List (List Nat) :=
  match h : findSub [59] l with
  | none => [l]
  | some i => l.take i :: splitOnSemi (l.drop (i + 1))
termination_by l.length
decreasing_by
  cases l with
  | nil => simp [findSub] at h
  | cons a t =>
    simp only [List.length_drop, List.length_cons]
    omega

/-- Modelled from the spec: unescape a quoted parameter value up to its
closing quote, mapping a backslash-escaped character to itself. -/
def unescapeQuoted : List Nat → List Nat
  | [] => []
  | 34 :: _ => []
  | 92 :: c :: t => c :: unescapeQuoted t
  | c :: t => c :: unescapeQuoted t

/-- Modelled from the spec: extract a parameter value from a header value
(RFC 2045 rules: quoted values are unescaped, unquoted values terminate at a
semicolon or whitespace). -/
def paramValue (key : List Nat) (v : List Nat) : Option (List Nat) :=
  (splitOnSemi v).findSome? (fun seg =>
    let s := trimLws seg
    match findSub [61] s with
    | none => none
    | some i =>
      if lowerBytes (s.take i) = key then
        match s.drop (i + 1) with
        | 34 :: rest => some (unescapeQuoted rest)
        | val => some (val.takeWhile (fun b => !isLws b))
      else none)

/-- Modelled from the spec: the derived name view over the headers
(from the Content-Disposition value; null when that header is absent). -/
def Part.name (p : Part) : Option (List Nat) :=
  (headerGet p.headers contentDispositionName).bind (paramValue nameKey)

/-- Modelled from the spec: the derived filename view over the headers. -/
def Part.filename (p : Part) : Option (List Nat) :=
  (headerGet p.headers contentDispositionName).bind (paramValue filenameKey)

/-- Modelled from the spec: the derived media-type view over the headers
(the Content-Type value up to its first semicolon, trimmed). -/
def Part.mediaType (p : Part) : Option (List Nat) :=
  (headerGet p.headers contentTypeName).map
    (fun v => trimLws (v.take ((findSub [59] v).getD v.length)))

/-- Modelled from the spec: the error surface of `MultipartParseError`,
discriminated by the sub-kinds of spec section 7 (the class itself is not
under src/). -/
inductive MultipartParseError where
  | NotMultipart
  | MissingBoundary
  | MissingInitialBoundary
  | MalformedDelimiter
  | HeaderTooLarge
  | PartTooLarge
  | UnexpectedEnd
  | StreamAlreadyConsumed
deriving DecidableEq, Repr

/-- Modelled from the spec: the parse-session options, the boundary and the
two per-part limits. -/
structure MPConfig where
  boundary : List Nat
  maxHeaderSize : Nat
  maxFileSize : Nat
deriving DecidableEq, Repr

/-- Modelled from the spec: the dash-boundary pattern, two dashes followed
by the boundary. -/
def dashBoundary (cfg : MPConfig) : List Nat := DASH :: DASH :: cfg.boundary

/-- Modelled from the spec: the inter-part delimiter pattern, CRLF followed
by the dash-boundary. -/
def delimiter (cfg : MPConfig) : List Nat := CR :: LF :: dashBoundary cfg

/-- Modelled from the spec: the header-block terminator pattern CRLF CRLF. -/
def crlfcrlf : List Nat := [CR, LF, CR, LF]

/-- Modelled from the spec (HeaderBlock state): find the CRLFCRLF
terminator and slice out the header block, enforcing `maxHeaderSize`; the
limit fires as soon as the read head passes the limit with no terminator
(hence also when the stream is too short to ever finish the block). -/
def headerScan (cfg : MPConfig) (rest : List Nat) :
    Except MultipartParseError (List Nat × List Nat) :=
  match findSub crlfcrlf rest with
  | some i =>
    if i ≤ cfg.maxHeaderSize then .ok (rest.take i, rest.drop (i + 4))
    else .error .HeaderTooLarge
  | none =>
    if cfg.maxHeaderSize + 3 < rest.length then .error .HeaderTooLarge
    else .error .UnexpectedEnd

/-- Modelled from the spec: the PartPayload step of the scanner, missing
from src/, in flat form. Find the next delimiter;
the payload is everything before it, enforcing `maxFileSize` (the limit
fires before the overshoot is emitted, hence also when the stream ends
without a delimiter after more than `maxFileSize` emittable bytes). -/
def payloadScan (cfg : MPConfig) (rest : List Nat) :
    Except MultipartParseError (List Nat × List Nat) :=
  match findSub (delimiter cfg) rest with
  | some k =>
    if k ≤ cfg.maxFileSize then .ok (rest.take k, rest.drop (k + (delimiter cfg).length))
    else .error .PartTooLarge
  | none =>
    if cfg.maxFileSize + (delimiter cfg).length ≤ rest.length then .error .PartTooLarge
    else .error .UnexpectedEnd

/-- State of the flat scanner. -/
inductive FlatState where
  | preamble
  | suffix
  | header
  | payload (hdrs : Headers)
deriving Repr

/-- Modelled from the spec: the BoundaryScanner state machine run over the
fully concatenated body. `suffix` is the inspection of the two bytes after a
dash-boundary (dash-dash terminates; optional linear whitespace then CRLF
opens a header block). -/
def runFlat (cfg : MPConfig) (st : FlatState) (parts : List Part)
    (rest : List Nat) : Except MultipartParseError (List Part) :=
  match st with
  | .preamble =>
    match h : findSub (dashBoundary cfg) rest with
    | none => .error .MissingInitialBoundary
    | some i => runFlat cfg .suffix parts (rest.drop (i + (dashBoundary cfg).length))
  | .suffix =>
    if rest.take 2 = [DASH, DASH] then .ok parts
    else if hw : lwsCount rest + 2 ≤ rest.length then
      if (rest.drop (lwsCount rest)).take 2 = [CR, LF] then
        runFlat cfg .header parts (rest.drop (lwsCount rest + 2))
      else .error .MalformedDelimiter
    else .error .UnexpectedEnd
  | .header =>
    match h : headerScan cfg rest with
    | .error e => .error e
    | .ok (block, rest') => runFlat cfg (.payload (parseHeaders block)) parts rest'
  | .payload hdrs =>
    match h : payloadScan cfg rest with
    | .error e => .error e
    | .ok (pl, rest') => runFlat cfg .suffix (parts ++ [⟨hdrs, pl⟩]) rest'
termination_by rest.length
decreasing_by
  · cases rest with
    | nil => simp [findSub, dashBoundary] at h
    | cons a t =>
      simp only [List.length_drop, List.length_cons, dashBoundary]
      omega
  · simp only [List.length_drop]
    omega
  · unfold headerScan at h
    cases hf : findSub crlfcrlf rest with
    | none =>
      simp only [hf] at h
      split at h <;> simp at h
    | some i =>
      simp only [hf] at h
      split at h
      · injection h with h2
        cases h2
        cases rest with
        | nil => simp [findSub, crlfcrlf] at hf
        | cons a t =>
          simp only [List.length_drop, List.length_cons]
          omega
      · simp at h
  · unfold payloadScan at h
    cases hf : findSub (delimiter cfg) rest with
    | none =>
      simp only [hf] at h
      split at h <;> simp at h
    | some k =>
      simp only [hf] at h
      split at h
      · injection h with h2
        cases h2
        cases rest with
        | nil => simp [findSub, delimiter, dashBoundary] at hf
        | cons a t =>
          simp only [List.length_drop, List.length_cons, delimiter, dashBoundary]
          omega
      · simp at h

/-- Modelled from the spec: parse of a whole body presented as one flat
byte sequence. -/
def parseMultipartFlat (cfg : MPConfig) (body : List Nat) :
    Except MultipartParseError (List Part) :=
  runFlat cfg .preamble [] body

/-- State of the chunked scanner. In `payload`, `count` is the per-part byte
counter and `acc` the payload bytes already emitted for the active part. -/
inductive ChunkState where
  | preamble
  | suffix
  | header
  | payload (hdrs : Headers) (count : Nat) (acc : List Nat)
deriving Repr

/-- Outcome of scanning the buffered bytes: a final result, or the state and
buffer with which the scanner awaits the next chunk. -/
inductive StepOut where
  | done (res : Except MultipartParseError (List Part))
  | more (st : ChunkState) (parts : List Part) (buf : List Nat)
deriving Repr

/-- Modelled from the spec: one round of the incremental BoundaryScanner.
Pattern searches are restricted to the buffered bytes. In the PartPayload
state, when no delimiter is buffered, everything but the final
`delimiter-length - 1` bytes is emitted (after enforcing `maxFileSize`)
before awaiting the next chunk. -/
def processBuf (cfg : MPConfig) (st : ChunkState) (parts : List Part)
    (buf : List Nat) : StepOut :=
  match st with
  | .preamble =>
    match h : findSub (dashBoundary cfg) buf with
    | some i => processBuf cfg .suffix parts (buf.drop (i + (dashBoundary cfg).length))
    | none => .more .preamble parts buf
  | .suffix =>
    if buf.take 2 = [DASH, DASH] then .done (.ok parts)
    else if hw : lwsCount buf + 2 ≤ buf.length then
      if (buf.drop (lwsCount buf)).take 2 = [CR, LF] then
        processBuf cfg .header parts (buf.drop (lwsCount buf + 2))
      else .done (.error .MalformedDelimiter)
    else .more .suffix parts buf
  | .header =>
    match h : findSub crlfcrlf buf with
    | some i =>
      if i ≤ cfg.maxHeaderSize then
        processBuf cfg (.payload (parseHeaders (buf.take i)) 0 []) parts (buf.drop (i + 4))
      else .done (.error .HeaderTooLarge)
    | none =>
      if cfg.maxHeaderSize + 3 < buf.length then .done (.error .HeaderTooLarge)
      else .more .header parts buf
  | .payload hdrs count acc =>
    match h : findSub (delimiter cfg) buf with
    | some k =>
      if count + k ≤ cfg.maxFileSize then
        processBuf cfg .suffix (parts ++ [⟨hdrs, acc ++ buf.take k⟩])
          (buf.drop (k + (delimiter cfg).length))
      else .done (.error .PartTooLarge)
    | none =>
      if count + (buf.length - ((delimiter cfg).length - 1)) ≤ cfg.maxFileSize then
        .more (.payload hdrs (count + (buf.length - ((delimiter cfg).length - 1)))
            (acc ++ buf.take (buf.length - ((delimiter cfg).length - 1))))
          parts (buf.drop (buf.length - ((delimiter cfg).length - 1)))
      else .done (.error .PartTooLarge)
termination_by buf.length
decreasing_by
  · cases buf with
    | nil => simp [findSub, dashBoundary] at h
    | cons a t =>
      simp only [List.length_drop, List.length_cons, dashBoundary]
      omega
  · simp only [List.length_drop]
    omega
  · cases buf with
    | nil => simp [findSub, crlfcrlf] at h
    | cons a t =>
      simp only [List.length_drop, List.length_cons]
      omega
  · cases buf with
    | nil => simp [findSub, delimiter, dashBoundary] at h
    | cons a t =>
      simp only [List.length_drop, List.length_cons, delimiter, dashBoundary]
      omega

/-- Modelled from the spec: the error raised when the stream ends while the
scanner is awaiting bytes:
no dash-boundary during the preamble means `MissingInitialBoundary`, any
later starvation is `UnexpectedEnd`. -/
def eosError : ChunkState → MultipartParseError
  | .preamble => .MissingInitialBoundary
  | _ => .UnexpectedEnd

/-- Modelled from the spec: the streaming scanner. Each round scans the
buffer as far as possible; `pull` moves the next chunk of the stream into
the buffer; a `pull` at end-of-stream raises the starvation error of the
waiting state. -/
def runChunked (cfg : MPConfig) (st : ChunkState) (parts : List Part)
    (buf : List Nat) : List (List Nat) → Except MultipartParseError (List Part)
  | [] =>
    match processBuf cfg st parts buf with
    | .done res => res
    | .more st' _ _ => .error (eosError st')
  | c :: cs =>
    match processBuf cfg st parts buf with
    | .done res => res
    | .more st' parts' buf' => runChunked cfg st' parts' (buf' ++ c) cs

/-- Modelled from the spec: the embedding of `parse`, the streaming parser
applied to a chunked body. -/
def parseMultipart (cfg : MPConfig) (cs : List (List Nat)) :
    Except MultipartParseError (List Part) :=
  runChunked cfg .preamble [] [] cs

/-- Flat-machine state corresponding to a chunked state. -/
def ChunkState.toFlat : ChunkState → FlatState
  | .preamble => .preamble
  | .suffix => .suffix
  | .header => .header
  | .payload hdrs _ _ => .payload hdrs

/-- Payload bytes already emitted in a chunked state. -/
def ChunkState.accOf : ChunkState → List Nat
  | .payload _ _ acc => acc
  | _ => []

/-- Invariant of the chunked payload state relative to the unread input
`rest`: the byte counter equals the emitted length, and no delimiter
occurrence starts inside the emitted region. -/
def ChunkInv (cfg : MPConfig) : ChunkState → List Nat → Prop
  | .payload _ count acc, rest =>
      count = acc.length ∧ count ≤ cfg.maxFileSize ∧
        ∀ p, p < acc.length → ¬ occursAt (delimiter cfg) (acc ++ rest) p
  | _, _ => True

/-- Waiting condition: what holds of the buffer when `processBuf` returns
`more` in the given state. -/
def WaitCond (cfg : MPConfig) : ChunkState → List Nat → Prop
  | .preamble, buf => findSub (dashBoundary cfg) buf = none
  | .suffix, buf => buf.take 2 ≠ [DASH, DASH] ∧ ¬ lwsCount buf + 2 ≤ buf.length
  | .header, buf =>
      findSub crlfcrlf buf = none ∧ ¬ cfg.maxHeaderSize + 3 < buf.length
  | .payload _ count _, buf =>
      findSub (delimiter cfg) buf = none ∧
        count + (buf.length - ((delimiter cfg).length - 1)) ≤ cfg.maxFileSize

/-! ## Theorems -/

theorem concatChunks_eq_flatten (chunks : List (List Nat)) :
    concatChunks chunks = chunks.flatten := by
  have hfold : ∀ (cs : List (List Nat)) (acc : List Nat),
      cs.foldl (fun acc c => acc ++ c) acc = acc ++ cs.flatten := by
    intro cs
    induction cs with
    | nil => intro acc; simp
    | cons c cs ih => intro acc; simp [List.foldl_cons, ih, List.append_assoc]
  match chunks with
  | [c] => simp [concatChunks]
  | [] => simp [concatChunks]
  | c₁ :: c₂ :: cs => simp [concatChunks, hfold]

theorem occursAt_length_le {pat l : List Nat} {i : Nat} (hp : pat ≠ [])
    (h : occursAt pat l i) : i + pat.length ≤ l.length := by
  unfold occursAt at h
  have hlen := congrArg List.length h
  rw [List.length_take, List.length_drop] at hlen
  have h1 : pat.length ≤ l.length - i := min_eq_left_iff.mp hlen
  have h2 : 0 < pat.length := List.length_pos.mpr hp
  omega

theorem findSub_eq_some_iff {pat l : List Nat} {i : Nat} :
    findSub pat l = some i ↔
      occursAt pat l i ∧ ∀ j, j < i → ¬ occursAt pat l j := by
  induction l generalizing i with
  | nil =>
    by_cases hp : pat = []
    · subst hp
      constructor
      · intro h
        have hi : i = 0 := by
          have h' := h
          simp [findSub] at h'
          omega
        subst hi
        exact ⟨by simp [occursAt], fun j hj => by omega⟩
      · rintro ⟨-, hmin⟩
        have hi : i = 0 := by
          by_contra hne
          exact hmin 0 (Nat.pos_of_ne_zero hne) (by simp [occursAt])
        subst hi
        simp [findSub]
    · constructor
      · intro h
        exfalso
        simp [findSub, hp] at h
      · rintro ⟨hocc, -⟩
        exfalso
        have h2 : ([] : List Nat) = pat := by
          unfold occursAt at hocc
          simpa using hocc
        exact hp h2.symm
  | cons a t ih =>
    unfold findSub
    by_cases h0 : (a :: t).take pat.length = pat
    · simp only [if_pos h0, Option.some.injEq]
      constructor
      · rintro rfl
        exact ⟨h0, fun j hj => absurd hj (Nat.not_lt_of_le (Nat.zero_le j))⟩
      · rintro ⟨_, hmin⟩
        by_contra hne
        have hpos : (0 : Nat) < i := Nat.pos_of_ne_zero fun h => hne h.symm
        exact hmin 0 hpos h0
    · simp only [if_neg h0]
      constructor
      · intro h
        rcases Option.map_eq_some'.mp h with ⟨j, hj, rfl⟩
        rcases ih.mp hj with ⟨hocc, hmin⟩
        refine ⟨hocc, ?_⟩
        intro k hk
        match k with
        | 0 => exact h0
        | k + 1 =>
          have : k < j := by omega
          exact hmin k this
      · rintro ⟨hocc, hmin⟩
        match i with
        | 0 => exact absurd hocc h0
        | i + 1 =>
          have : findSub pat t = some i := by
            apply ih.mpr
            refine ⟨hocc, ?_⟩
            intro j hj
            exact hmin (j + 1) (by omega)
          simp [this]

theorem findSub_eq_none_iff {pat l : List Nat} :
    findSub pat l = none ↔ ∀ j, ¬ occursAt pat l j := by
  constructor
  · intro h j hocc
    classical
    by_cases hex : ∃ k, occursAt pat l k
    · have hwf := Nat.find_spec hex
      have hmin : ∀ m, m < Nat.find hex → ¬ occursAt pat l m :=
        fun m hm => Nat.find_min hex hm
      have : findSub pat l = some (Nat.find hex) :=
        findSub_eq_some_iff.mpr ⟨hwf, hmin⟩
      rw [h] at this
      exact absurd this (by simp)
    · exact hex ⟨j, hocc⟩
  · intro h
    cases hf : findSub pat l with
    | none => rfl
    | some i =>
      exact absurd (findSub_eq_some_iff.mp hf).1 (h i)

theorem findSub_some_bound {pat l : List Nat} {i : Nat} (hp : pat ≠ [])
    (h : findSub pat l = some i) : i + pat.length ≤ l.length :=
  occursAt_length_le hp (findSub_eq_some_iff.mp h).1

theorem occursAt_append_left {pat l t : List Nat} {i : Nat}
    (hle : i + pat.length ≤ l.length) (h : occursAt pat l i) :
    occursAt pat (l ++ t) i := by
  unfold occursAt at *
  rw [List.drop_append_of_le_length (by omega),
    List.take_append_of_le_length (by rw [List.length_drop]; omega)]
  exact h

theorem occursAt_append_inner {pat l t : List Nat} {i : Nat}
    (hle : i + pat.length ≤ l.length) (h : occursAt pat (l ++ t) i) :
    occursAt pat l i := by
  unfold occursAt at *
  rw [List.drop_append_of_le_length (by omega),
    List.take_append_of_le_length (by rw [List.length_drop]; omega)] at h
  exact h

theorem occursAt_append_shift {pat a x : List Nat} {k : Nat} :
    occursAt pat (a ++ x) (a.length + k) ↔ occursAt pat x k := by
  unfold occursAt
  rw [List.drop_append]

theorem findSub_append_some {pat l t : List Nat} {i : Nat} (hp : pat ≠ [])
    (h : findSub pat l = some i) : findSub pat (l ++ t) = some i := by
  rcases findSub_eq_some_iff.mp h with ⟨hocc, hmin⟩
  have hle : i + pat.length ≤ l.length := occursAt_length_le hp hocc
  apply findSub_eq_some_iff.mpr
  refine ⟨occursAt_append_left hle hocc, ?_⟩
  intro j hj hocc'
  have hjle : j + pat.length ≤ l.length := by omega
  exact hmin j hj (occursAt_append_inner hjle hocc')

theorem findSub_none_not_inner {pat l t : List Nat} {j : Nat}
    (hnone : findSub pat l = none) (h : occursAt pat (l ++ t) j) :
    l.length < j + pat.length := by
  by_contra hle
  push_neg at hle
  exact (findSub_eq_none_iff.mp hnone j) (occursAt_append_inner hle h)

theorem dashBoundary_ne_nil (cfg : MPConfig) : dashBoundary cfg ≠ [] := by
  simp [dashBoundary]

theorem delimiter_ne_nil (cfg : MPConfig) : delimiter cfg ≠ [] := by
  simp [delimiter]

theorem crlfcrlf_ne_nil : crlfcrlf ≠ [] := by
  simp [crlfcrlf]

theorem delimiter_length (cfg : MPConfig) :
    (delimiter cfg).length = cfg.boundary.length + 4 := by
  simp [delimiter, dashBoundary]

theorem headerScan_ok_length {cfg : MPConfig} {rest block rest' : List Nat}
    (h : headerScan cfg rest = .ok (block, rest')) :
    rest'.length < rest.length := by
  unfold headerScan at h
  cases hf : findSub crlfcrlf rest with
  | none =>
    simp only [hf] at h
    split at h <;> simp at h
  | some i =>
    simp only [hf] at h
    split at h
    · injection h with h2
      have hb := findSub_some_bound crlfcrlf_ne_nil hf
      simp only [crlfcrlf, List.length_cons, List.length_nil] at hb
      cases h2
      simp only [List.length_drop]
      omega
    · simp at h

theorem payloadScan_ok_length {cfg : MPConfig} {rest pl rest' : List Nat}
    (h : payloadScan cfg rest = .ok (pl, rest')) :
    rest'.length < rest.length := by
  unfold payloadScan at h
  cases hf : findSub (delimiter cfg) rest with
  | none =>
    simp only [hf] at h
    split at h <;> simp at h
  | some k =>
    simp only [hf] at h
    split at h
    · injection h with h2
      have hb := findSub_some_bound (delimiter_ne_nil cfg) hf
      rw [delimiter_length] at hb
      cases h2
      simp only [List.length_drop, delimiter_length]
      omega
    · simp at h

theorem runFlat_preamble_none {cfg : MPConfig} {parts : List Part} {rest : List Nat}
    (h : findSub (dashBoundary cfg) rest = none) :
    runFlat cfg .preamble parts rest = .error .MissingInitialBoundary := by
  conv_lhs => rw [runFlat]
  split
  · rfl
  · rename_i i hi
    rw [h] at hi
    cases hi

theorem runFlat_preamble_some {cfg : MPConfig} {parts : List Part} {rest : List Nat}
    {i : Nat} (h : findSub (dashBoundary cfg) rest = some i) :
    runFlat cfg .preamble parts rest
      = runFlat cfg .suffix parts (rest.drop (i + (dashBoundary cfg).length)) := by
  conv_lhs => rw [runFlat]
  split
  · rename_i hj
    rw [h] at hj
    cases hj
  · rename_i j hj
    rw [h] at hj
    cases hj
    rfl

theorem runFlat_suffix_close {cfg : MPConfig} {parts : List Part} {rest : List Nat}
    (h : rest.take 2 = [DASH, DASH]) :
    runFlat cfg .suffix parts rest = .ok parts := by
  conv_lhs => rw [runFlat]
  simp [h]

theorem runFlat_suffix_crlf {cfg : MPConfig} {parts : List Part} {rest : List Nat}
    (h1 : rest.take 2 ≠ [DASH, DASH]) (h2 : lwsCount rest + 2 ≤ rest.length)
    (h3 : (rest.drop (lwsCount rest)).take 2 = [CR, LF]) :
    runFlat cfg .suffix parts rest
      = runFlat cfg .header parts (rest.drop (lwsCount rest + 2)) := by
  conv_lhs => rw [runFlat]
  simp [h1, h2, h3]

theorem runFlat_suffix_malformed {cfg : MPConfig} {parts : List Part} {rest : List Nat}
    (h1 : rest.take 2 ≠ [DASH, DASH]) (h2 : lwsCount rest + 2 ≤ rest.length)
    (h3 : (rest.drop (lwsCount rest)).take 2 ≠ [CR, LF]) :
    runFlat cfg .suffix parts rest = .error .MalformedDelimiter := by
  conv_lhs => rw [runFlat]
  simp [h1, h2, h3]

theorem runFlat_suffix_short {cfg : MPConfig} {parts : List Part} {rest : List Nat}
    (h1 : rest.take 2 ≠ [DASH, DASH]) (h2 : ¬ lwsCount rest + 2 ≤ rest.length) :
    runFlat cfg .suffix parts rest = .error .UnexpectedEnd := by
  conv_lhs => rw [runFlat]
  simp [h1, h2]

theorem runFlat_header_ok {cfg : MPConfig} {parts : List Part} {rest block rest2 : List Nat}
    (h : headerScan cfg rest = .ok (block, rest2)) :
    runFlat cfg .header parts rest
      = runFlat cfg (.payload (parseHeaders block)) parts rest2 := by
  conv_lhs => rw [runFlat]
  split
  · rename_i e he
    rw [h] at he
    cases he
  · rename_i b r hr
    rw [h] at hr
    cases hr
    rfl

theorem runFlat_header_err {cfg : MPConfig} {parts : List Part} {rest : List Nat}
    {e : MultipartParseError} (h : headerScan cfg rest = .error e) :
    runFlat cfg .header parts rest = .error e := by
  conv_lhs => rw [runFlat]
  split
  · rename_i e2 he
    rw [h] at he
    cases he
    rfl
  · rename_i b r hr
    rw [h] at hr
    cases hr

theorem runFlat_payload_ok {cfg : MPConfig} {hdrs : Headers} {parts : List Part}
    {rest pl rest2 : List Nat} (h : payloadScan cfg rest = .ok (pl, rest2)) :
    runFlat cfg (.payload hdrs) parts rest
      = runFlat cfg .suffix (parts ++ [⟨hdrs, pl⟩]) rest2 := by
  conv_lhs => rw [runFlat]
  split
  · rename_i e he
    rw [h] at he
    cases he
  · rename_i p r hr
    rw [h] at hr
    cases hr
    rfl

theorem runFlat_payload_err {cfg : MPConfig} {hdrs : Headers} {parts : List Part}
    {rest : List Nat} {e : MultipartParseError} (h : payloadScan cfg rest = .error e) :
    runFlat cfg (.payload hdrs) parts rest = .error e := by
  conv_lhs => rw [runFlat]
  split
  · rename_i e2 he
    rw [h] at he
    cases he
    rfl
  · rename_i p r hr
    rw [h] at hr
    cases hr

theorem processBuf_preamble_some {cfg : MPConfig} {parts : List Part}
    {buf : List Nat} {i : Nat} (h : findSub (dashBoundary cfg) buf = some i) :
    processBuf cfg .preamble parts buf
      = processBuf cfg .suffix parts (buf.drop (i + (dashBoundary cfg).length)) := by
  conv_lhs => rw [processBuf]
  split
  · rename_i j hj
    rw [h] at hj
    cases hj
    rfl
  · rename_i hj
    rw [h] at hj
    cases hj

theorem processBuf_preamble_none {cfg : MPConfig} {parts : List Part}
    {buf : List Nat} (h : findSub (dashBoundary cfg) buf = none) :
    processBuf cfg .preamble parts buf = .more .preamble parts buf := by
  conv_lhs => rw [processBuf]
  split
  · rename_i j hj
    rw [h] at hj
    cases hj
  · rfl

theorem processBuf_suffix_close {cfg : MPConfig} {parts : List Part}
    {buf : List Nat} (h : buf.take 2 = [DASH, DASH]) :
    processBuf cfg .suffix parts buf = .done (.ok parts) := by
  conv_lhs => rw [processBuf]
  simp [h]

theorem processBuf_suffix_crlf {cfg : MPConfig} {parts : List Part}
    {buf : List Nat}
    (h1 : buf.take 2 ≠ [DASH, DASH]) (h2 : lwsCount buf + 2 ≤ buf.length)
    (h3 : (buf.drop (lwsCount buf)).take 2 = [CR, LF]) :
    processBuf cfg .suffix parts buf
      = processBuf cfg .header parts (buf.drop (lwsCount buf + 2)) := by
  conv_lhs => rw [processBuf]
  simp [h1, h2, h3]

theorem processBuf_suffix_malformed {cfg : MPConfig} {parts : List Part}
    {buf : List Nat}
    (h1 : buf.take 2 ≠ [DASH, DASH]) (h2 : lwsCount buf + 2 ≤ buf.length)
    (h3 : (buf.drop (lwsCount buf)).take 2 ≠ [CR, LF]) :
    processBuf cfg .suffix parts buf = .done (.error .MalformedDelimiter) := by
  conv_lhs => rw [processBuf]
  simp [h1, h2, h3]

theorem processBuf_suffix_wait {cfg : MPConfig} {parts : List Part}
    {buf : List Nat}
    (h1 : buf.take 2 ≠ [DASH, DASH]) (h2 : ¬ lwsCount buf + 2 ≤ buf.length) :
    processBuf cfg .suffix parts buf = .more .suffix parts buf := by
  conv_lhs => rw [processBuf]
  simp [h1, h2]

theorem processBuf_header_found_ok {cfg : MPConfig} {parts : List Part}
    {buf : List Nat} {i : Nat}
    (h : findSub crlfcrlf buf = some i) (hle : i ≤ cfg.maxHeaderSize) :
    processBuf cfg .header parts buf
      = processBuf cfg (.payload (parseHeaders (buf.take i)) 0 []) parts
          (buf.drop (i + 4)) := by
  conv_lhs => rw [processBuf]
  split
  · rename_i j hj
    rw [h] at hj
    cases hj
    simp [hle]
  · rename_i hj
    rw [h] at hj
    cases hj

theorem processBuf_header_found_large {cfg : MPConfig} {parts : List Part}
    {buf : List Nat} {i : Nat}
    (h : findSub crlfcrlf buf = some i) (hgt : ¬ i ≤ cfg.maxHeaderSize) :
    processBuf cfg .header parts buf = .done (.error .HeaderTooLarge) := by
  conv_lhs => rw [processBuf]
  split
  · rename_i j hj
    rw [h] at hj
    cases hj
    simp [hgt]
  · rename_i hj
    rw [h] at hj
    cases hj

theorem processBuf_header_none_large {cfg : MPConfig} {parts : List Part}
    {buf : List Nat}
    (h : findSub crlfcrlf buf = none) (hgt : cfg.maxHeaderSize + 3 < buf.length) :
    processBuf cfg .header parts buf = .done (.error .HeaderTooLarge) := by
  conv_lhs => rw [processBuf]
  split
  · rename_i j hj
    rw [h] at hj
    cases hj
  · simp [hgt]

theorem processBuf_header_none_wait {cfg : MPConfig} {parts : List Part}
    {buf : List Nat}
    (h : findSub crlfcrlf buf = none) (hle : ¬ cfg.maxHeaderSize + 3 < buf.length) :
    processBuf cfg .header parts buf = .more .header parts buf := by
  conv_lhs => rw [processBuf]
  split
  · rename_i j hj
    rw [h] at hj
    cases hj
  · simp [hle]

theorem processBuf_payload_found_ok {cfg : MPConfig} {hdrs : Headers}
    {count : Nat} {acc : List Nat} {parts : List Part} {buf : List Nat} {k : Nat}
    (h : findSub (delimiter cfg) buf = some k) (hle : count + k ≤ cfg.maxFileSize) :
    processBuf cfg (.payload hdrs count acc) parts buf
      = processBuf cfg .suffix (parts ++ [⟨hdrs, acc ++ buf.take k⟩])
          (buf.drop (k + (delimiter cfg).length)) := by
  conv_lhs => rw [processBuf]
  split
  · rename_i j hj
    rw [h] at hj
    cases hj
    simp [hle]
  · rename_i hj
    rw [h] at hj
    cases hj

theorem processBuf_payload_found_large {cfg : MPConfig} {hdrs : Headers}
    {count : Nat} {acc : List Nat} {parts : List Part} {buf : List Nat} {k : Nat}
    (h : findSub (delimiter cfg) buf = some k) (hgt : ¬ count + k ≤ cfg.maxFileSize) :
    processBuf cfg (.payload hdrs count acc) parts buf
      = .done (.error .PartTooLarge) := by
  conv_lhs => rw [processBuf]
  split
  · rename_i j hj
    rw [h] at hj
    cases hj
    simp [hgt]
  · rename_i hj
    rw [h] at hj
    cases hj

theorem processBuf_payload_none_large {cfg : MPConfig} {hdrs : Headers}
    {count : Nat} {acc : List Nat} {parts : List Part} {buf : List Nat}
    (h : findSub (delimiter cfg) buf = none)
    (hgt : ¬ count + (buf.length - ((delimiter cfg).length - 1)) ≤ cfg.maxFileSize) :
    processBuf cfg (.payload hdrs count acc) parts buf
      = .done (.error .PartTooLarge) := by
  conv_lhs => rw [processBuf]
  split
  · rename_i j hj
    rw [h] at hj
    cases hj
  · simp [hgt]

theorem processBuf_payload_none_wait {cfg : MPConfig} {hdrs : Headers}
    {count : Nat} {acc : List Nat} {parts : List Part} {buf : List Nat}
    (h : findSub (delimiter cfg) buf = none)
    (hle : count + (buf.length - ((delimiter cfg).length - 1)) ≤ cfg.maxFileSize) :
    processBuf cfg (.payload hdrs count acc) parts buf
      = .more (.payload hdrs (count + (buf.length - ((delimiter cfg).length - 1)))
            (acc ++ buf.take (buf.length - ((delimiter cfg).length - 1))))
          parts (buf.drop (buf.length - ((delimiter cfg).length - 1))) := by
  conv_lhs => rw [processBuf]
  split
  · rename_i j hj
    rw [h] at hj
    cases hj
  · simp [hle]

theorem runChunked_nil_done {cfg : MPConfig} {st : ChunkState} {parts : List Part}
    {buf : List Nat} {res : Except MultipartParseError (List Part)}
    (h : processBuf cfg st parts buf = .done res) :
    runChunked cfg st parts buf [] = res := by
  rw [runChunked, h]

theorem runChunked_nil_more {cfg : MPConfig} {st st2 : ChunkState}
    {parts parts2 : List Part} {buf buf2 : List Nat}
    (h : processBuf cfg st parts buf = .more st2 parts2 buf2) :
    runChunked cfg st parts buf [] = .error (eosError st2) := by
  rw [runChunked, h]

theorem runChunked_cons_done {cfg : MPConfig} {st : ChunkState} {parts : List Part}
    {buf c : List Nat} {cs : List (List Nat)}
    {res : Except MultipartParseError (List Part)}
    (h : processBuf cfg st parts buf = .done res) :
    runChunked cfg st parts buf (c :: cs) = res := by
  rw [runChunked, h]

theorem runChunked_cons_more {cfg : MPConfig} {st st2 : ChunkState}
    {parts parts2 : List Part} {buf buf2 c : List Nat} {cs : List (List Nat)}
    (h : processBuf cfg st parts buf = .more st2 parts2 buf2) :
    runChunked cfg st parts buf (c :: cs)
      = runChunked cfg st2 parts2 (buf2 ++ c) cs := by
  rw [runChunked, h]

theorem take_two_length {l : List Nat} {a b : Nat} (h : l.take 2 = [a, b]) :
    2 ≤ l.length := by
  have hl := congrArg List.length h
  rw [List.length_take] at hl
  simp only [List.length_cons, List.length_nil] at hl
  omega

theorem take_two_append {l t : List Nat} (h : 2 ≤ l.length) :
    (l ++ t).take 2 = l.take 2 :=
  List.take_append_of_le_length h

theorem lwsCount_le (l : List Nat) : lwsCount l ≤ l.length :=
  (List.takeWhile_sublist isLws).length_le

theorem lwsCount_append {l t : List Nat} (h : lwsCount l < l.length) :
    lwsCount (l ++ t) = lwsCount l := by
  unfold lwsCount at *
  rw [List.takeWhile_append, if_neg (by omega)]

theorem occursAt_drop_iff {pat l : List Nat} {s q : Nat} :
    occursAt pat (l.drop s) q ↔ occursAt pat l (s + q) := by
  unfold occursAt
  rw [List.drop_drop]

theorem findSub_drop_none {pat l : List Nat} {s : Nat}
    (h : findSub pat l = none) : findSub pat (l.drop s) = none := by
  rw [findSub_eq_none_iff] at h ⊢
  intro q hq
  exact h (s + q) (occursAt_drop_iff.mp hq)

theorem findSub_prefix_shift {pat a x : List Nat} {k : Nat} (hp : pat ≠ [])
    (hpre : ∀ p, p < a.length → ¬ occursAt pat (a ++ x) p)
    (h : findSub pat x = some k) :
    findSub pat (a ++ x) = some (a.length + k) := by
  rcases findSub_eq_some_iff.mp h with ⟨hocc, hmin⟩
  apply findSub_eq_some_iff.mpr
  refine ⟨occursAt_append_shift.mpr hocc, ?_⟩
  intro j hj hocc2
  by_cases hja : j < a.length
  · exact hpre j hja hocc2
  · have hq : j = a.length + (j - a.length) := by omega
    rw [hq] at hocc2
    exact hmin (j - a.length) (by omega) (occursAt_append_shift.mp hocc2)

theorem findSub_prefix_none {pat a x : List Nat}
    (hpre : ∀ p, p < a.length → ¬ occursAt pat (a ++ x) p)
    (h : findSub pat x = none) :
    findSub pat (a ++ x) = none := by
  rw [findSub_eq_none_iff] at h ⊢
  intro j hocc
  by_cases hja : j < a.length
  · exact hpre j hja hocc
  · have hq : j = a.length + (j - a.length) := by omega
    rw [hq] at hocc
    exact h (j - a.length) (occursAt_append_shift.mp hocc)

theorem headerScan_append_found {cfg : MPConfig} {buf J : List Nat} {i : Nat}
    (hf : findSub crlfcrlf buf = some i) (hle : i ≤ cfg.maxHeaderSize) :
    headerScan cfg (buf ++ J) = .ok (buf.take i, buf.drop (i + 4) ++ J) := by
  have hb := findSub_some_bound crlfcrlf_ne_nil hf
  simp only [crlfcrlf, List.length_cons, List.length_nil] at hb
  unfold headerScan
  simp only [findSub_append_some crlfcrlf_ne_nil hf]
  rw [if_pos hle, List.take_append_of_le_length (by omega),
    List.drop_append_of_le_length (by omega)]

theorem headerScan_append_found_large {cfg : MPConfig} {buf J : List Nat} {i : Nat}
    (hf : findSub crlfcrlf buf = some i) (hgt : ¬ i ≤ cfg.maxHeaderSize) :
    headerScan cfg (buf ++ J) = .error .HeaderTooLarge := by
  unfold headerScan
  simp only [findSub_append_some crlfcrlf_ne_nil hf]
  rw [if_neg hgt]

theorem headerScan_append_none_large {cfg : MPConfig} {buf J : List Nat}
    (hf : findSub crlfcrlf buf = none) (hgt : cfg.maxHeaderSize + 3 < buf.length) :
    headerScan cfg (buf ++ J) = .error .HeaderTooLarge := by
  unfold headerScan
  cases hf2 : findSub crlfcrlf (buf ++ J) with
  | some i =>
    have hocc := (findSub_eq_some_iff.mp hf2).1
    have hbig := findSub_none_not_inner hf hocc
    simp only [crlfcrlf, List.length_cons, List.length_nil] at hbig
    simp only []
    rw [if_neg (by omega)]
  | none =>
    simp only []
    rw [if_pos (by simp only [List.length_append]; omega)]

theorem headerScan_eos {cfg : MPConfig} {buf : List Nat}
    (hf : findSub crlfcrlf buf = none) (hle : ¬ cfg.maxHeaderSize + 3 < buf.length) :
    headerScan cfg buf = .error .UnexpectedEnd := by
  unfold headerScan
  simp only [hf]
  rw [if_neg hle]

theorem payloadScan_pre_found {cfg : MPConfig} {acc buf J : List Nat} {k : Nat}
    (hpre : ∀ p, p < acc.length → ¬ occursAt (delimiter cfg) (acc ++ (buf ++ J)) p)
    (hf : findSub (delimiter cfg) buf = some k) (hle : acc.length + k ≤ cfg.maxFileSize) :
    payloadScan cfg (acc ++ (buf ++ J))
      = .ok (acc ++ buf.take k, buf.drop (k + (delimiter cfg).length) ++ J) := by
  have hb := findSub_some_bound (delimiter_ne_nil cfg) hf
  have hfS := findSub_prefix_shift (delimiter_ne_nil cfg) hpre
    (findSub_append_some (delimiter_ne_nil cfg) hf)
  unfold payloadScan
  simp only [hfS]
  rw [if_pos hle, Nat.add_assoc, List.take_append, List.drop_append,
    List.take_append_of_le_length (by omega),
    List.drop_append_of_le_length (by omega)]

theorem payloadScan_pre_found_large {cfg : MPConfig} {acc buf J : List Nat} {k : Nat}
    (hpre : ∀ p, p < acc.length → ¬ occursAt (delimiter cfg) (acc ++ (buf ++ J)) p)
    (hf : findSub (delimiter cfg) buf = some k) (hgt : ¬ acc.length + k ≤ cfg.maxFileSize) :
    payloadScan cfg (acc ++ (buf ++ J)) = .error .PartTooLarge := by
  have hfS := findSub_prefix_shift (delimiter_ne_nil cfg) hpre
    (findSub_append_some (delimiter_ne_nil cfg) hf)
  unfold payloadScan
  simp only [hfS]
  rw [if_neg hgt]

theorem payloadScan_pre_none_large {cfg : MPConfig} {acc buf J : List Nat}
    (hpre : ∀ p, p < acc.length → ¬ occursAt (delimiter cfg) (acc ++ (buf ++ J)) p)
    (hf : findSub (delimiter cfg) buf = none)
    (hacc : acc.length ≤ cfg.maxFileSize)
    (hbig : ¬ acc.length + (buf.length - ((delimiter cfg).length - 1)) ≤ cfg.maxFileSize) :
    payloadScan cfg (acc ++ (buf ++ J)) = .error .PartTooLarge := by
  have hL := delimiter_length cfg
  have hbufL : (delimiter cfg).length ≤ buf.length := by omega
  unfold payloadScan
  cases hf2 : findSub (delimiter cfg) (acc ++ (buf ++ J)) with
  | some kS =>
    have hocc := (findSub_eq_some_iff.mp hf2).1
    have hks : ¬ kS < acc.length := fun hlt => hpre kS hlt hocc
    have hshift : occursAt (delimiter cfg) (buf ++ J) (kS - acc.length) := by
      have heq : kS = acc.length + (kS - acc.length) := by omega
      rw [heq] at hocc
      exact occursAt_append_shift.mp hocc
    have hbound := findSub_none_not_inner hf hshift
    simp only []
    rw [if_neg (by omega)]
  | none =>
    simp only []
    rw [if_pos (by simp only [List.length_append]; omega)]

theorem payloadScan_pre_eos {cfg : MPConfig} {acc buf : List Nat}
    (hpre : ∀ p, p < acc.length → ¬ occursAt (delimiter cfg) (acc ++ buf) p)
    (hf : findSub (delimiter cfg) buf = none)
    (hsmall : acc.length + buf.length < cfg.maxFileSize + (delimiter cfg).length) :
    payloadScan cfg (acc ++ buf) = .error .UnexpectedEnd := by
  have hfS := findSub_prefix_none hpre hf
  unfold payloadScan
  simp only [hfS]
  rw [if_neg (by simp only [List.length_append]; omega)]

/-- A finished round of the chunked scanner computes exactly what the flat
machine computes on the buffered bytes followed by any future input. -/
theorem processBuf_done_flat (cfg : MPConfig) (st : ChunkState) (parts : List Part)
    (buf J : List Nat) (res : Except MultipartParseError (List Part))
    (hinv : ChunkInv cfg st (buf ++ J))
    (h : processBuf cfg st parts buf = .done res) :
    runFlat cfg st.toFlat parts (st.accOf ++ (buf ++ J)) = res := by
  cases st with
  | preamble =>
    simp only [ChunkState.toFlat, ChunkState.accOf, List.nil_append]
    cases hf : findSub (dashBoundary cfg) buf with
    | none =>
      rw [processBuf_preamble_none hf] at h
      cases h
    | some i =>
      rw [processBuf_preamble_some hf] at h
      have hb := findSub_some_bound (dashBoundary_ne_nil cfg) hf
      rw [runFlat_preamble_some (findSub_append_some (dashBoundary_ne_nil cfg) hf),
        List.drop_append_of_le_length (by omega)]
      have hrec := processBuf_done_flat cfg .suffix parts
        (buf.drop (i + (dashBoundary cfg).length)) J res trivial h
      simpa [ChunkState.toFlat, ChunkState.accOf] using hrec
  | suffix =>
    simp only [ChunkState.toFlat, ChunkState.accOf, List.nil_append]
    by_cases h2 : buf.take 2 = [DASH, DASH]
    · rw [processBuf_suffix_close h2] at h
      cases h
      rw [runFlat_suffix_close (by rw [take_two_append (take_two_length h2)]; exact h2)]
    · by_cases hw : lwsCount buf + 2 ≤ buf.length
      · have hlt : lwsCount buf < buf.length := by omega
        have hwA : lwsCount (buf ++ J) = lwsCount buf := lwsCount_append hlt
        have h2A : (buf ++ J).take 2 ≠ [DASH, DASH] := by
          rw [take_two_append (by omega)]
          exact h2
        have hdropA : (buf ++ J).drop (lwsCount buf) = buf.drop (lwsCount buf) ++ J :=
          List.drop_append_of_le_length (by omega)
        have htA : ((buf ++ J).drop (lwsCount (buf ++ J))).take 2
            = (buf.drop (lwsCount buf)).take 2 := by
          rw [hwA, hdropA, List.take_append_of_le_length (by simp only [List.length_drop]; omega)]
        by_cases h3 : (buf.drop (lwsCount buf)).take 2 = [CR, LF]
        · rw [processBuf_suffix_crlf h2 hw h3] at h
          rw [runFlat_suffix_crlf h2A (by rw [hwA]; simp only [List.length_append]; omega)
            (by rw [htA]; exact h3)]
          rw [hwA, List.drop_append_of_le_length (by omega)]
          have hrec := processBuf_done_flat cfg .header parts
            (buf.drop (lwsCount buf + 2)) J res trivial h
          simpa [ChunkState.toFlat, ChunkState.accOf] using hrec
        · rw [processBuf_suffix_malformed h2 hw h3] at h
          cases h
          rw [runFlat_suffix_malformed h2A (by rw [hwA]; simp only [List.length_append]; omega)
            (by rw [htA]; exact h3)]
      · rw [processBuf_suffix_wait h2 hw] at h
        cases h
  | header =>
    simp only [ChunkState.toFlat, ChunkState.accOf, List.nil_append]
    cases hf : findSub crlfcrlf buf with
    | some i =>
      by_cases hle : i ≤ cfg.maxHeaderSize
      · rw [processBuf_header_found_ok hf hle] at h
        rw [runFlat_header_ok (headerScan_append_found hf hle)]
        have hrec := processBuf_done_flat cfg (.payload (parseHeaders (buf.take i)) 0 [])
          parts (buf.drop (i + 4)) J res
          (by
            refine ⟨rfl, by omega, ?_⟩
            intro p hp
            simp at hp)
          h
        simpa [ChunkState.toFlat, ChunkState.accOf] using hrec
      · rw [processBuf_header_found_large hf hle] at h
        cases h
        rw [runFlat_header_err (headerScan_append_found_large hf hle)]
    | none =>
      by_cases hgt : cfg.maxHeaderSize + 3 < buf.length
      · rw [processBuf_header_none_large hf hgt] at h
        cases h
        rw [runFlat_header_err (headerScan_append_none_large hf hgt)]
      · rw [processBuf_header_none_wait hf hgt] at h
        cases h
  | payload hdrs count acc =>
    obtain ⟨hc1, hc2, hc3⟩ := hinv
    simp only [ChunkState.toFlat, ChunkState.accOf]
    cases hf : findSub (delimiter cfg) buf with
    | some k =>
      have hb := findSub_some_bound (delimiter_ne_nil cfg) hf
      by_cases hle : count + k ≤ cfg.maxFileSize
      · rw [processBuf_payload_found_ok hf hle] at h
        rw [runFlat_payload_ok (payloadScan_pre_found hc3 hf (by omega))]
        have hrec := processBuf_done_flat cfg .suffix
          (parts ++ [⟨hdrs, acc ++ buf.take k⟩])
          (buf.drop (k + (delimiter cfg).length)) J res trivial h
        simpa [ChunkState.toFlat, ChunkState.accOf] using hrec
      · rw [processBuf_payload_found_large hf hle] at h
        cases h
        rw [runFlat_payload_err (payloadScan_pre_found_large hc3 hf (by omega))]
    | none =>
      by_cases hfit : count + (buf.length - ((delimiter cfg).length - 1)) ≤ cfg.maxFileSize
      · rw [processBuf_payload_none_wait hf hfit] at h
        cases h
      · rw [processBuf_payload_none_large hf hfit] at h
        cases h
        rw [runFlat_payload_err (payloadScan_pre_none_large hc3 hf (by omega) (by omega))]
termination_by buf.length
decreasing_by
  · have hb2 := findSub_some_bound (dashBoundary_ne_nil cfg) hf
    have hd : 0 < (dashBoundary cfg).length := by simp [dashBoundary]
    simp only [List.length_drop]
    omega
  · simp only [List.length_drop]
    omega
  · have hb2 := findSub_some_bound crlfcrlf_ne_nil hf
    simp only [crlfcrlf, List.length_cons, List.length_nil] at hb2
    simp only [List.length_drop]
    omega
  · have hb2 := findSub_some_bound (delimiter_ne_nil cfg) hf
    rw [delimiter_length] at hb2
    simp only [List.length_drop, delimiter_length]
    omega

/-- A starved round of the chunked scanner: the flat machine on the same
input is unchanged by advancing to the waiting state, whose invariant and
waiting condition hold. -/
theorem processBuf_more_flat (cfg : MPConfig) (st : ChunkState) (parts : List Part)
    (buf J : List Nat) (st2 : ChunkState) (parts2 : List Part) (buf2 : List Nat)
    (hinv : ChunkInv cfg st (buf ++ J))
    (h : processBuf cfg st parts buf = .more st2 parts2 buf2) :
    runFlat cfg st.toFlat parts (st.accOf ++ (buf ++ J))
        = runFlat cfg st2.toFlat parts2 (st2.accOf ++ (buf2 ++ J))
      ∧ ChunkInv cfg st2 (buf2 ++ J)
      ∧ WaitCond cfg st2 buf2 := by
  cases st with
  | preamble =>
    cases hf : findSub (dashBoundary cfg) buf with
    | none =>
      rw [processBuf_preamble_none hf] at h
      cases h
      exact ⟨rfl, trivial, hf⟩
    | some i =>
      rw [processBuf_preamble_some hf] at h
      have hb := findSub_some_bound (dashBoundary_ne_nil cfg) hf
      have hrec := processBuf_more_flat cfg .suffix parts
        (buf.drop (i + (dashBoundary cfg).length)) J st2 parts2 buf2 trivial h
      refine ⟨?_, hrec.2.1, hrec.2.2⟩
      simp only [ChunkState.toFlat, ChunkState.accOf, List.nil_append]
      rw [runFlat_preamble_some (findSub_append_some (dashBoundary_ne_nil cfg) hf),
        List.drop_append_of_le_length (by omega)]
      simpa [ChunkState.toFlat, ChunkState.accOf] using hrec.1
  | suffix =>
    by_cases h2 : buf.take 2 = [DASH, DASH]
    · rw [processBuf_suffix_close h2] at h
      cases h
    · by_cases hw : lwsCount buf + 2 ≤ buf.length
      · have hlt : lwsCount buf < buf.length := by omega
        have hwA : lwsCount (buf ++ J) = lwsCount buf := lwsCount_append hlt
        have h2A : (buf ++ J).take 2 ≠ [DASH, DASH] := by
          rw [take_two_append (by omega)]
          exact h2
        have hdropA : (buf ++ J).drop (lwsCount buf) = buf.drop (lwsCount buf) ++ J :=
          List.drop_append_of_le_length (by omega)
        have htA : ((buf ++ J).drop (lwsCount (buf ++ J))).take 2
            = (buf.drop (lwsCount buf)).take 2 := by
          rw [hwA, hdropA, List.take_append_of_le_length (by simp only [List.length_drop]; omega)]
        by_cases h3 : (buf.drop (lwsCount buf)).take 2 = [CR, LF]
        · rw [processBuf_suffix_crlf h2 hw h3] at h
          have hrec := processBuf_more_flat cfg .header parts
            (buf.drop (lwsCount buf + 2)) J st2 parts2 buf2 trivial h
          refine ⟨?_, hrec.2.1, hrec.2.2⟩
          simp only [ChunkState.toFlat, ChunkState.accOf, List.nil_append]
          rw [runFlat_suffix_crlf h2A (by rw [hwA]; simp only [List.length_append]; omega)
            (by rw [htA]; exact h3)]
          rw [hwA, List.drop_append_of_le_length (by omega)]
          simpa [ChunkState.toFlat, ChunkState.accOf] using hrec.1
        · rw [processBuf_suffix_malformed h2 hw h3] at h
          cases h
      · rw [processBuf_suffix_wait h2 hw] at h
        cases h
        exact ⟨rfl, trivial, h2, hw⟩
  | header =>
    cases hf : findSub crlfcrlf buf with
    | some i =>
      by_cases hle : i ≤ cfg.maxHeaderSize
      · rw [processBuf_header_found_ok hf hle] at h
        have hrec := processBuf_more_flat cfg (.payload (parseHeaders (buf.take i)) 0 [])
          parts (buf.drop (i + 4)) J st2 parts2 buf2
          (by
            refine ⟨rfl, by omega, ?_⟩
            intro p hp
            simp at hp)
          h
        refine ⟨?_, hrec.2.1, hrec.2.2⟩
        simp only [ChunkState.toFlat, ChunkState.accOf, List.nil_append]
        rw [runFlat_header_ok (headerScan_append_found hf hle)]
        simpa [ChunkState.toFlat, ChunkState.accOf] using hrec.1
      · rw [processBuf_header_found_large hf hle] at h
        cases h
    | none =>
      by_cases hgt : cfg.maxHeaderSize + 3 < buf.length
      · rw [processBuf_header_none_large hf hgt] at h
        cases h
      · rw [processBuf_header_none_wait hf hgt] at h
        cases h
        exact ⟨rfl, trivial, hf, hgt⟩
  | payload hdrs count acc =>
    obtain ⟨hc1, hc2, hc3⟩ := hinv
    cases hf : findSub (delimiter cfg) buf with
    | some k =>
      have hb := findSub_some_bound (delimiter_ne_nil cfg) hf
      by_cases hle : count + k ≤ cfg.maxFileSize
      · rw [processBuf_payload_found_ok hf hle] at h
        have hrec := processBuf_more_flat cfg .suffix
          (parts ++ [⟨hdrs, acc ++ buf.take k⟩])
          (buf.drop (k + (delimiter cfg).length)) J st2 parts2 buf2 trivial h
        refine ⟨?_, hrec.2.1, hrec.2.2⟩
        simp only [ChunkState.toFlat, ChunkState.accOf]
        rw [runFlat_payload_ok (payloadScan_pre_found hc3 hf (by omega))]
        simpa [ChunkState.toFlat, ChunkState.accOf] using hrec.1
      · rw [processBuf_payload_found_large hf hle] at h
        cases h
    | none =>
      have hL := delimiter_length cfg
      by_cases hfit : count + (buf.length - ((delimiter cfg).length - 1)) ≤ cfg.maxFileSize
      · rw [processBuf_payload_none_wait hf hfit] at h
        cases h
        have hsafe : buf.length - ((delimiter cfg).length - 1) ≤ buf.length := by omega
        have hstr : (acc ++ buf.take (buf.length - ((delimiter cfg).length - 1)))
            ++ (buf.drop (buf.length - ((delimiter cfg).length - 1)) ++ J)
            = acc ++ (buf ++ J) := by
          rw [List.append_assoc, ← List.append_assoc
            (buf.take (buf.length - ((delimiter cfg).length - 1))), List.take_append_drop]
        refine ⟨?_, ⟨?_, ?_, ?_⟩, ?_, ?_⟩
        · simp only [ChunkState.toFlat, ChunkState.accOf]
          rw [hstr]
        · simp only [List.length_append, List.length_take]
          omega
        · exact hfit
        · intro p hp
          rw [hstr]
          simp only [List.length_append, List.length_take] at hp
          by_cases hpa : p < acc.length
          · exact hc3 p hpa
          · intro hocc
            have hq : p = acc.length + (p - acc.length) := by omega
            rw [hq] at hocc
            have hocc2 := occursAt_append_shift.mp hocc
            have hql : (p - acc.length) + (delimiter cfg).length ≤ buf.length := by omega
            have hocc3 := occursAt_append_inner hql hocc2
            exact (findSub_eq_none_iff.mp hf) (p - acc.length) hocc3
        · exact findSub_drop_none hf
        · simp only [List.length_drop]
          omega
      · rw [processBuf_payload_none_large hf hfit] at h
        cases h
termination_by buf.length
decreasing_by
  · have hb2 := findSub_some_bound (dashBoundary_ne_nil cfg) hf
    have hd : 0 < (dashBoundary cfg).length := by simp [dashBoundary]
    simp only [List.length_drop]
    omega
  · simp only [List.length_drop]
    omega
  · have hb2 := findSub_some_bound crlfcrlf_ne_nil hf
    simp only [crlfcrlf, List.length_cons, List.length_nil] at hb2
    simp only [List.length_drop]
    omega
  · have hb2 := findSub_some_bound (delimiter_ne_nil cfg) hf
    rw [delimiter_length] at hb2
    simp only [List.length_drop, delimiter_length]
    omega

/-- With no input left, the flat machine starves exactly as the waiting
chunked state does. -/
theorem wait_flat_eos (cfg : MPConfig) (st : ChunkState) (parts : List Part)
    (buf : List Nat) (hw : WaitCond cfg st buf) (hinv : ChunkInv cfg st buf) :
    runFlat cfg st.toFlat parts (st.accOf ++ buf) = .error (eosError st) := by
  cases st with
  | preamble =>
    simp only [ChunkState.toFlat, ChunkState.accOf, List.nil_append, eosError]
    exact runFlat_preamble_none hw
  | suffix =>
    simp only [ChunkState.toFlat, ChunkState.accOf, List.nil_append, eosError]
    exact runFlat_suffix_short hw.1 hw.2
  | header =>
    simp only [ChunkState.toFlat, ChunkState.accOf, List.nil_append, eosError]
    exact runFlat_header_err (headerScan_eos hw.1 hw.2)
  | payload hdrs count acc =>
    obtain ⟨hc1, hc2, hc3⟩ := hinv
    obtain ⟨hw1, hw2⟩ := hw
    have hL := delimiter_length cfg
    simp only [ChunkState.toFlat, ChunkState.accOf, eosError]
    exact runFlat_payload_err (payloadScan_pre_eos hc3 hw1 (by omega))

/-- The chunked scanner agrees with the flat machine on the concatenation of
the buffered bytes and all remaining chunks. -/
theorem runChunked_eq_runFlat (cfg : MPConfig) (st : ChunkState) (parts : List Part)
    (buf : List Nat) (cs : List (List Nat))
    (hinv : ChunkInv cfg st (buf ++ cs.flatten)) :
    runChunked cfg st parts buf cs
      = runFlat cfg st.toFlat parts (st.accOf ++ (buf ++ cs.flatten)) := by
  induction cs generalizing st parts buf with
  | nil =>
    simp only [List.flatten_nil, List.append_nil] at hinv ⊢
    cases hp : processBuf cfg st parts buf with
    | done res =>
      rw [runChunked_nil_done hp]
      have hres := processBuf_done_flat cfg st parts buf [] res
        (by rwa [List.append_nil]) hp
      rw [List.append_nil] at hres
      exact hres.symm
    | more st2 parts2 buf2 =>
      rw [runChunked_nil_more hp]
      obtain ⟨ha, hc, hd⟩ := processBuf_more_flat cfg st parts buf [] st2 parts2 buf2
        (by rwa [List.append_nil]) hp
      rw [List.append_nil] at ha
      rw [ha, List.append_nil]
      exact (wait_flat_eos cfg st2 parts2 buf2 hd (by rwa [List.append_nil] at hc)).symm
  | cons c cs ih =>
    simp only [List.flatten_cons] at hinv ⊢
    cases hp : processBuf cfg st parts buf with
    | done res =>
      rw [runChunked_cons_done hp]
      exact (processBuf_done_flat cfg st parts buf (c ++ cs.flatten) res hinv hp).symm
    | more st2 parts2 buf2 =>
      rw [runChunked_cons_more hp]
      obtain ⟨ha, hc, hd⟩ := processBuf_more_flat cfg st parts buf (c ++ cs.flatten)
        st2 parts2 buf2 hinv hp
      rw [ha]
      have hassoc : buf2 ++ (c ++ cs.flatten) = (buf2 ++ c) ++ cs.flatten :=
        (List.append_assoc buf2 c cs.flatten).symm
      rw [hassoc] at hc
      rw [show st2.accOf ++ (buf2 ++ (c ++ cs.flatten))
          = st2.accOf ++ ((buf2 ++ c) ++ cs.flatten) by rw [hassoc]]
      exact ih st2 parts2 (buf2 ++ c) hc

/-- Chunk-independence of the embedded parser: `parseMultipart` computes
the flat parse of the concatenated chunks. -/
theorem parseMultipart_eq_flat (cfg : MPConfig) (cs : List (List Nat)) :
    parseMultipart cfg cs = parseMultipartFlat cfg cs.flatten := by
  unfold parseMultipart parseMultipartFlat
  have h := runChunked_eq_runFlat cfg .preamble [] [] cs trivial
  simpa [ChunkState.toFlat, ChunkState.accOf] using h

theorem payloadScan_mono {bd : List Nat} {mh n m : Nat} {rest pl rest2 : List Nat}
    (hnm : n ≤ m)
    (h : payloadScan ⟨bd, mh, n⟩ rest = .ok (pl, rest2)) :
    payloadScan ⟨bd, mh, m⟩ rest = .ok (pl, rest2) := by
  unfold payloadScan at h ⊢
  cases hf : findSub (delimiter ⟨bd, mh, n⟩) rest with
  | none =>
    simp only [hf] at h
    split at h <;> simp at h
  | some k =>
    simp only [hf] at h
    have hf2 : findSub (delimiter ⟨bd, mh, m⟩) rest = some k := hf
    simp only [hf2]
    split at h
    · rename_i hk
      injection h with h2
      cases h2
      have hk2 : k ≤ ({ boundary := bd, maxHeaderSize := mh, maxFileSize := m } : MPConfig).maxFileSize := by
        simp only [MPConfig.maxFileSize] at hk ⊢
        omega
      rw [if_pos hk2]
      rfl
    · simp at h

theorem runFlat_mono (bd : List Nat) (mh n m : Nat) (hnm : n ≤ m)
    (st : FlatState) (parts : List Part) (rest : List Nat) (out : List Part)
    (h : runFlat ⟨bd, mh, n⟩ st parts rest = .ok out) :
    runFlat ⟨bd, mh, m⟩ st parts rest = .ok out := by
  cases st with
  | preamble =>
    cases hf : findSub (dashBoundary ⟨bd, mh, n⟩) rest with
    | none =>
      rw [runFlat_preamble_none hf] at h
      cases h
    | some i =>
      rw [runFlat_preamble_some hf] at h
      have hf2 : findSub (dashBoundary ⟨bd, mh, m⟩) rest = some i := hf
      rw [runFlat_preamble_some hf2]
      exact runFlat_mono bd mh n m hnm .suffix parts _ out h
  | suffix =>
    by_cases h2 : rest.take 2 = [DASH, DASH]
    · rw [runFlat_suffix_close h2] at h
      cases h
      exact runFlat_suffix_close h2
    · by_cases hw : lwsCount rest + 2 ≤ rest.length
      · by_cases h3 : (rest.drop (lwsCount rest)).take 2 = [CR, LF]
        · rw [runFlat_suffix_crlf h2 hw h3] at h
          rw [runFlat_suffix_crlf h2 hw h3]
          exact runFlat_mono bd mh n m hnm .header parts _ out h
        · rw [runFlat_suffix_malformed h2 hw h3] at h
          cases h
      · rw [runFlat_suffix_short h2 hw] at h
        cases h
  | header =>
    cases hs : headerScan ⟨bd, mh, n⟩ rest with
    | error e =>
      rw [runFlat_header_err hs] at h
      cases h
    | ok pr =>
      obtain ⟨block, rest2⟩ := pr
      rw [runFlat_header_ok hs] at h
      have hs2 : headerScan ⟨bd, mh, m⟩ rest = .ok (block, rest2) := hs
      rw [runFlat_header_ok hs2]
      exact runFlat_mono bd mh n m hnm (.payload (parseHeaders block)) parts rest2 out h
  | payload hdrs =>
    cases hs : payloadScan ⟨bd, mh, n⟩ rest with
    | error e =>
      rw [runFlat_payload_err hs] at h
      cases h
    | ok pr =>
      obtain ⟨pl, rest2⟩ := pr
      rw [runFlat_payload_ok hs] at h
      rw [runFlat_payload_ok (payloadScan_mono hnm hs)]
      exact runFlat_mono bd mh n m hnm .suffix (parts ++ [⟨hdrs, pl⟩]) rest2 out h
termination_by rest.length
decreasing_by
  · have hb := findSub_some_bound (dashBoundary_ne_nil ⟨bd, mh, n⟩) hf
    simp only [dashBoundary, List.length_cons, List.length_drop] at hb ⊢
    omega
  · simp only [List.length_drop]
    omega
  · exact headerScan_ok_length hs
  · exact payloadScan_ok_length hs

/-- Monotonicity of the streaming parser in `maxFileSize`. -/
theorem parseMultipart_mono {bd : List Nat} {mh n m : Nat}
    {cs : List (List Nat)} {out : List Part} (hnm : n ≤ m)
    (h : parseMultipart ⟨bd, mh, n⟩ cs = .ok out) :
    parseMultipart ⟨bd, mh, m⟩ cs = .ok out := by
  rw [parseMultipart_eq_flat] at h ⊢
  unfold parseMultipartFlat at h ⊢
  exact runFlat_mono bd mh n m hnm .preamble [] cs.flatten out h

theorem occursAt_cons_mem {b : Nat} {pat l t : List Nat} {j : Nat}
    (hocc : occursAt (b :: pat) (l ++ t) j) (hj : j < l.length) : b ∈ l := by
  unfold occursAt at hocc
  rw [List.drop_append_of_le_length (by omega)] at hocc
  cases hld : l.drop j with
  | nil =>
    exfalso
    have hlen := congrArg List.length hld
    simp only [List.length_drop, List.length_nil] at hlen
    omega
  | cons c cs =>
    rw [hld, List.cons_append, List.length_cons, List.take_succ_cons] at hocc
    injection hocc with h1 h2
    subst h1
    exact List.mem_of_mem_drop (hld ▸ List.mem_cons_self c cs)

theorem occursAt_zero_append (pat t : List Nat) : occursAt pat (pat ++ t) 0 := by
  unfold occursAt
  rw [List.drop_zero, List.take_left]

theorem findSub_self_append (pat t : List Nat) : findSub pat (pat ++ t) = some 0 :=
  findSub_eq_some_iff.mpr ⟨occursAt_zero_append pat t, fun j hj => by omega⟩

theorem findSub_clean_start {b : Nat} {q l t : List Nat} (hb : b ∉ l) :
    findSub (b :: q) (l ++ ((b :: q) ++ t)) = some l.length := by
  apply findSub_eq_some_iff.mpr
  refine ⟨?_, ?_⟩
  · have h0 := occursAt_zero_append (b :: q) t
    have hs := (occursAt_append_shift (a := l) (k := 0)).mpr h0
    simpa using hs
  · intro j hj hoccj
    exact hb (occursAt_cons_mem hoccj hj)

theorem runFlat_suffix_at_crlf (cfg : MPConfig) (parts : List Part) (Y : List Nat) :
    runFlat cfg .suffix parts (CR :: LF :: Y) = runFlat cfg .header parts Y := by
  have hlws : lwsCount (CR :: LF :: Y) = 0 := by
    simp [lwsCount, List.takeWhile_cons, isLws, CR]
  have h1 : (CR :: LF :: Y).take 2 ≠ [DASH, DASH] := by simp [CR, DASH]
  have h2 : lwsCount (CR :: LF :: Y) + 2 ≤ (CR :: LF :: Y).length := by
    rw [hlws]
    simp
  have h3 : ((CR :: LF :: Y).drop (lwsCount (CR :: LF :: Y))).take 2 = [CR, LF] := by
    rw [hlws]
    rfl
  rw [runFlat_suffix_crlf h1 h2 h3, hlws]
  rfl

theorem runFlat_header_block (cfg : MPConfig) (parts : List Part) (hblock rest : List Nat)
    (hcr : CR ∉ hblock) (hH : hblock.length ≤ cfg.maxHeaderSize) :
    runFlat cfg .header parts (hblock ++ (CR :: LF :: CR :: LF :: rest))
      = runFlat cfg (.payload (parseHeaders hblock)) parts rest := by
  have hfind : findSub crlfcrlf (hblock ++ (CR :: LF :: CR :: LF :: rest))
      = some hblock.length :=
    findSub_clean_start (b := CR) (q := [LF, CR, LF]) (l := hblock) (t := rest) hcr
  have hscan : headerScan cfg (hblock ++ (CR :: LF :: CR :: LF :: rest))
      = .ok (hblock, rest) := by
    unfold headerScan
    simp only [hfind]
    rw [if_pos hH, List.take_left, List.drop_append]
    rfl
  rw [runFlat_header_ok hscan]

theorem runFlat_payload_block (cfg : MPConfig) (hdrs : Headers) (parts : List Part)
    (p tail : List Nat) (hcr : CR ∉ p) (hP : p.length ≤ cfg.maxFileSize) :
    runFlat cfg (.payload hdrs) parts (p ++ (delimiter cfg ++ tail))
      = runFlat cfg .suffix (parts ++ [⟨hdrs, p⟩]) tail := by
  have hfind : findSub (delimiter cfg) (p ++ (delimiter cfg ++ tail)) = some p.length :=
    findSub_clean_start (b := CR) (q := LF :: dashBoundary cfg) (l := p) (t := tail) hcr
  have hscan : payloadScan cfg (p ++ (delimiter cfg ++ tail)) = .ok (p, tail) := by
    unfold payloadScan
    simp only [hfind]
    rw [if_pos hP, List.take_left, List.drop_append, List.drop_left]
  rw [runFlat_payload_ok hscan]

/-- Flat parse of a canonical single-part body, leaving the scanner at the
delimiter-suffix inspection of `tail`. -/
theorem runFlat_single_part (cfg : MPConfig) (hblock p tail : List Nat)
    (hcrH : CR ∉ hblock) (hH : hblock.length ≤ cfg.maxHeaderSize)
    (hcrP : CR ∉ p) (hP : p.length ≤ cfg.maxFileSize) :
    parseMultipartFlat cfg
      (dashBoundary cfg
        ++ (CR :: LF :: (hblock ++ (CR :: LF :: CR :: LF :: (p ++ (delimiter cfg ++ tail))))))
      = runFlat cfg .suffix [⟨parseHeaders hblock, p⟩] tail := by
  unfold parseMultipartFlat
  rw [runFlat_preamble_some (findSub_self_append (dashBoundary cfg) _), Nat.zero_add,
    List.drop_left, runFlat_suffix_at_crlf, runFlat_header_block cfg _ _ _ hcrH hH,
    runFlat_payload_block cfg _ _ _ _ hcrP hP]
  rfl

/-- Flat parse of a canonical single-part body terminated by the
close-delimiter and an arbitrary epilogue. -/
theorem parseFlat_single_closed (cfg : MPConfig) (hblock p epi : List Nat)
    (hcrH : CR ∉ hblock) (hH : hblock.length ≤ cfg.maxHeaderSize)
    (hcrP : CR ∉ p) (hP : p.length ≤ cfg.maxFileSize) :
    parseMultipartFlat cfg
      (dashBoundary cfg
        ++ (CR :: LF :: (hblock ++ (CR :: LF :: CR :: LF
          :: (p ++ (delimiter cfg ++ (DASH :: DASH :: epi)))))))
      = .ok [⟨parseHeaders hblock, p⟩] := by
  rw [runFlat_single_part cfg hblock p _ hcrH hH hcrP hP]
  exact runFlat_suffix_close rfl

/-- Flat parse of a body that ends directly after an inter-part delimiter:
the scanner starves waiting for the delimiter suffix. -/
theorem parseFlat_single_truncated (cfg : MPConfig) (hblock p : List Nat)
    (hcrH : CR ∉ hblock) (hH : hblock.length ≤ cfg.maxHeaderSize)
    (hcrP : CR ∉ p) (hP : p.length ≤ cfg.maxFileSize) :
    parseMultipartFlat cfg
      (dashBoundary cfg
        ++ (CR :: LF :: (hblock ++ (CR :: LF :: CR :: LF :: (p ++ (delimiter cfg ++ []))))))
      = .error .UnexpectedEnd := by
  rw [runFlat_single_part cfg hblock p [] hcrH hH hcrP hP]
  refine runFlat_suffix_short (by simp [DASH]) ?_
  simp [lwsCount]

theorem findSub_cons_none_of_not_mem {b : Nat} {q l : List Nat} (hb : b ∉ l) :
    findSub (b :: q) l = none := by
  rw [findSub_eq_none_iff]
  intro j hocc
  have hlen := occursAt_length_le (by simp) hocc
  simp only [List.length_cons] at hlen
  have hocc2 : occursAt (b :: q) (l ++ []) j := by rwa [List.append_nil]
  exact hb (occursAt_cons_mem hocc2 (by omega))

theorem parseHeaders_no_colon {line : List Nat} (hcr : CR ∉ line)
    (hcolon : (58 : Nat) ∉ line) : parseHeaders line = ⟨[line], []⟩ := by
  have hsplit : splitLines line = [line] := by
    rw [splitLines]
    split
    · rfl
    · rename_i i hi
      rw [findSub_cons_none_of_not_mem (q := [LF]) hcr] at hi
      cases hi
  have hline : parseHeaderLine line = none := by
    unfold parseHeaderLine
    rw [findSub_cons_none_of_not_mem (q := []) hcolon]
  unfold parseHeaders
  rw [hsplit]
  simp [hline]

theorem headerGet_no_fields (raw : List (List Nat)) (nm : List Nat) :
    headerGet ⟨raw, []⟩ nm = none := rfl

theorem flatten_getElem_offset (cs : List (List Nat)) :
    ∀ (j i : Nat) (ch : List Nat), cs[j]? = some ch → i < ch.length →
      cs.flatten[(((cs.take j).map List.length).sum + i)]? = ch[i]? := by
  induction cs with
  | nil =>
    intro j i ch hch hi
    simp at hch
  | cons c cs ih =>
    intro j i ch hch hi
    cases j with
    | zero =>
      simp only [List.getElem?_cons_zero, Option.some.injEq] at hch
      subst hch
      simp only [List.take_zero, List.map_nil, List.sum_nil, Nat.zero_add,
        List.flatten_cons]
      rw [List.getElem?_append_left hi]
    | succ j2 =>
      simp only [List.getElem?_cons_succ] at hch
      simp only [List.take_succ_cons, List.map_cons, List.sum_cons, List.flatten_cons]
      rw [Nat.add_assoc, List.getElem?_append_right (by omega)]
      have hsub : c.length + (((cs.take j2).map List.length).sum + i) - c.length
          = ((cs.take j2).map List.length).sum + i := by omega
      rw [hsub]
      exact ih j2 i ch hch hi

/-- C1: for every body and every two ways of splitting it into chunk
sequences, parse yields identical part sequences (same parts, same headers,
same payload bytes), even when a chunking splits a delimiter at an
arbitrary offset. -/
theorem parse_chunk_invariance (cfg : MPConfig) (cs1 cs2 : List (List Nat))
    (h : cs1.flatten = cs2.flatten) :
    parseMultipart cfg cs1 = parseMultipart cfg cs2 := by
  rw [parseMultipart_eq_flat, parseMultipart_eq_flat, h]

theorem parse_chunk_invariance_witness :
    ([[45, 45, 65, 13, 10, 72, 13, 10, 13, 10, 120, 121, 13, 10, 45, 45, 65, 45, 45]]
        : List (List Nat)).flatten
      = ([[45, 45, 65, 13, 10, 72, 13, 10, 13, 10, 120, 121, 13],
          [10, 45, 45, 65, 45, 45]] : List (List Nat)).flatten
    ∧ parseMultipart ⟨[65], 100, 100⟩
        [[45, 45, 65, 13, 10, 72, 13, 10, 13, 10, 120, 121, 13, 10, 45, 45, 65, 45, 45]]
      = parseMultipart ⟨[65], 100, 100⟩
        [[45, 45, 65, 13, 10, 72, 13, 10, 13, 10, 120, 121, 13],
          [10, 45, 45, 65, 45, 45]] :=
  ⟨by decide, parse_chunk_invariance ⟨[65], 100, 100⟩ _ _ (by decide)⟩

/-- C2: a part's payload is exactly the bytes between its header terminator
and the CRLF that precedes the next dash-boundary: when the scanner is in
the payload state on `p ++ delimiter ++ tail` and the first delimiter
occurrence is the one at the end of `p`, the part emitted carries payload
exactly `p` and scanning resumes at `tail`. -/
theorem part_payload_exact (cfg : MPConfig) (hdrs : Headers) (parts : List Part)
    (p tail : List Nat)
    (hfirst : findSub (delimiter cfg) (p ++ (delimiter cfg ++ tail)) = some p.length)
    (hP : p.length ≤ cfg.maxFileSize) :
    runFlat cfg (.payload hdrs) parts (p ++ (delimiter cfg ++ tail))
      = runFlat cfg .suffix (parts ++ [⟨hdrs, p⟩]) tail := by
  have hscan : payloadScan cfg (p ++ (delimiter cfg ++ tail)) = .ok (p, tail) := by
    unfold payloadScan
    simp only [hfirst]
    rw [if_pos hP, List.take_left, List.drop_append, List.drop_left]
  exact runFlat_payload_ok hscan

theorem part_payload_exact_witness :
    (findSub (delimiter ⟨[65], 100, 100⟩)
        ([120, 121] ++ (delimiter ⟨[65], 100, 100⟩ ++ [45, 45]))
      = some ([120, 121] : List Nat).length
    ∧ ([120, 121] : List Nat).length ≤ (⟨[65], 100, 100⟩ : MPConfig).maxFileSize)
    ∧ runFlat ⟨[65], 100, 100⟩ (.payload ⟨[], []⟩) []
        ([120, 121] ++ (delimiter ⟨[65], 100, 100⟩ ++ [45, 45]))
      = runFlat ⟨[65], 100, 100⟩ .suffix [⟨⟨[], []⟩, [120, 121]⟩] [45, 45] :=
  ⟨⟨by decide, by decide⟩,
    part_payload_exact ⟨[65], 100, 100⟩ ⟨[], []⟩ [] [120, 121] [45, 45]
      (by decide) (by decide)⟩

/-- C3: in the payload state the scanner keeps a per-part byte counter, and
whenever the bytes the current buffer commits it to emit (up to the found
delimiter, or the safe flush prefix when none is buffered) would push the
counter past `maxFileSize`, it finishes with `PartTooLarge` without emitting
them. -/
theorem part_too_large_enforced (cfg : MPConfig) (hdrs : Headers) (count : Nat)
    (acc : List Nat) (parts : List Part) (buf : List Nat)
    (hover : cfg.maxFileSize <
      count + (match findSub (delimiter cfg) buf with
               | some k => k
               | none => buf.length - ((delimiter cfg).length - 1))) :
    processBuf cfg (.payload hdrs count acc) parts buf
      = .done (.error .PartTooLarge) := by
  cases hf : findSub (delimiter cfg) buf with
  | some k =>
    simp only [hf] at hover
    exact processBuf_payload_found_large hf (by omega)
  | none =>
    simp only [hf] at hover
    exact processBuf_payload_none_large hf (by omega)

theorem part_too_large_enforced_witness :
    ((⟨[65], 10, 3⟩ : MPConfig).maxFileSize <
      2 + (match findSub (delimiter ⟨[65], 10, 3⟩) [120, 121, 122, 123, 124, 125] with
           | some k => k
           | none => ([120, 121, 122, 123, 124, 125] : List Nat).length
               - ((delimiter ⟨[65], 10, 3⟩).length - 1)))
    ∧ processBuf ⟨[65], 10, 3⟩ (.payload ⟨[], []⟩ 2 [9, 9]) []
        [120, 121, 122, 123, 124, 125]
      = .done (.error .PartTooLarge) :=
  ⟨by decide,
    part_too_large_enforced ⟨[65], 10, 3⟩ ⟨[], []⟩ 2 [9, 9] []
      [120, 121, 122, 123, 124, 125] (by decide)⟩

/-- C4: the header-block step raises `HeaderTooLarge` exactly when the read
head has passed `maxHeaderSize` bytes without the terminating CRLFCRLF: the
terminator is found at an offset above the limit, or it is absent and even
a terminator beginning in the final three bytes would lie beyond it. -/
theorem header_too_large_iff (cfg : MPConfig) (rest : List Nat) :
    headerScan cfg rest = .error .HeaderTooLarge ↔
      (match findSub crlfcrlf rest with
       | some i => cfg.maxHeaderSize < i
       | none => cfg.maxHeaderSize + 3 < rest.length) := by
  unfold headerScan
  cases hf : findSub crlfcrlf rest with
  | some i =>
    simp only []
    by_cases hle : i ≤ cfg.maxHeaderSize
    · rw [if_pos hle]
      constructor
      · intro h
        cases h
      · intro h2
        exact absurd h2 (by omega)
    · rw [if_neg hle]
      constructor
      · intro _
        omega
      · intro _
        rfl
  | none =>
    simp only []
    by_cases hgt : cfg.maxHeaderSize + 3 < rest.length
    · rw [if_pos hgt]
      exact ⟨fun _ => hgt, fun _ => rfl⟩
    · rw [if_neg hgt]
      constructor
      · intro h
        simp at h
      · intro h2
        exact absurd h2 hgt

/-- C5: a stream that ends mid-header-block or mid-payload, before a
close-delimiter, raises `UnexpectedEnd`; in particular a body that ends
with an inter-part delimiter instead of the close-delimiter does. -/
theorem unexpected_end_on_truncation (cfg : MPConfig) (hblock p : List Nat)
    (hcrH : CR ∉ hblock) (hH : hblock.length ≤ cfg.maxHeaderSize)
    (hcrP : CR ∉ p) (hP : p.length ≤ cfg.maxFileSize) :
    parseMultipart cfg
        [dashBoundary cfg
          ++ (CR :: LF :: (hblock ++ (CR :: LF :: CR :: LF :: (p ++ delimiter cfg))))]
        = .error .UnexpectedEnd
      ∧ headerScan cfg hblock = .error .UnexpectedEnd
      ∧ payloadScan cfg p = .error .UnexpectedEnd := by
  refine ⟨?_, ?_, ?_⟩
  · rw [parseMultipart_eq_flat]
    simp only [List.flatten_cons, List.flatten_nil, List.append_nil]
    have h := parseFlat_single_truncated cfg hblock p hcrH hH hcrP hP
    simpa using h
  · exact headerScan_eos
      (findSub_cons_none_of_not_mem (b := CR) (q := [LF, CR, LF]) hcrH) (by omega)
  · have hnone : findSub (delimiter cfg) p = none :=
      findSub_cons_none_of_not_mem (b := CR) (q := LF :: dashBoundary cfg) hcrP
    unfold payloadScan
    simp only [hnone]
    rw [if_neg (by have := delimiter_length cfg; omega)]

theorem unexpected_end_on_truncation_witness :
    (CR ∉ ([72] : List Nat) ∧ ([72] : List Nat).length ≤ (⟨[65], 10, 9⟩ : MPConfig).maxHeaderSize
      ∧ CR ∉ ([120] : List Nat) ∧ ([120] : List Nat).length ≤ (⟨[65], 10, 9⟩ : MPConfig).maxFileSize)
    ∧ parseMultipart ⟨[65], 10, 9⟩
        [dashBoundary ⟨[65], 10, 9⟩
          ++ (CR :: LF :: ([72] ++ (CR :: LF :: CR :: LF :: ([120] ++ delimiter ⟨[65], 10, 9⟩))))]
        = .error .UnexpectedEnd
    ∧ headerScan ⟨[65], 10, 9⟩ [72] = .error .UnexpectedEnd
    ∧ payloadScan ⟨[65], 10, 9⟩ [120] = .error .UnexpectedEnd := by
  have h := unexpected_end_on_truncation ⟨[65], 10, 9⟩ [72] [120]
    (by decide) (by decide) (by decide) (by decide)
  exact ⟨⟨by decide, by decide, by decide, by decide⟩, h.1, h.2.1, h.2.2⟩

/-- C6: enlarging `maxFileSize` preserves success and output: if parse
succeeds with limit `n`, it succeeds with the same part sequence for every
limit `m ≥ n`. -/
theorem max_file_size_monotone (bd : List Nat) (mh n m : Nat)
    (cs : List (List Nat)) (parts : List Part) (hnm : n ≤ m)
    (h : parseMultipart ⟨bd, mh, n⟩ cs = .ok parts) :
    parseMultipart ⟨bd, mh, m⟩ cs = .ok parts :=
  parseMultipart_mono hnm h

theorem max_file_size_monotone_witness :
    ((3 : Nat) ≤ 9
      ∧ parseMultipart ⟨[65], 10, 3⟩
          [dashBoundary ⟨[65], 10, 3⟩
            ++ (CR :: LF :: ([72] ++ (CR :: LF :: CR :: LF
              :: ([120] ++ (delimiter ⟨[65], 10, 3⟩ ++ (DASH :: DASH :: []))))))]
        = .ok [⟨parseHeaders [72], [120]⟩])
    ∧ parseMultipart ⟨[65], 10, 9⟩
        [dashBoundary ⟨[65], 10, 3⟩
          ++ (CR :: LF :: ([72] ++ (CR :: LF :: CR :: LF
            :: ([120] ++ (delimiter ⟨[65], 10, 3⟩ ++ (DASH :: DASH :: []))))))]
      = .ok [⟨parseHeaders [72], [120]⟩] := by
  have hok : parseMultipart ⟨[65], 10, 3⟩
      [dashBoundary ⟨[65], 10, 3⟩
        ++ (CR :: LF :: ([72] ++ (CR :: LF :: CR :: LF
          :: ([120] ++ (delimiter ⟨[65], 10, 3⟩ ++ (DASH :: DASH :: []))))))]
      = .ok [⟨parseHeaders [72], [120]⟩] := by
    rw [parseMultipart_eq_flat]
    simp only [List.flatten_cons, List.flatten_nil, List.append_nil]
    exact parseFlat_single_closed ⟨[65], 10, 3⟩ [72] [120] []
      (by decide) (by decide) (by decide) (by decide)
  have hmono := max_file_size_monotone [65] 10 3 9 _ _ (by omega) hok
  exact ⟨⟨by omega, hok⟩, hmono⟩

/-- C7: an empty part, whose header block is immediately followed by the
next delimiter, is still yielded: the parse result contains exactly that
part and its payload has length zero. -/
theorem empty_part_yielded (cfg : MPConfig) (hblock epi : List Nat)
    (hcrH : CR ∉ hblock) (hH : hblock.length ≤ cfg.maxHeaderSize) :
    parseMultipart cfg
        [dashBoundary cfg
          ++ (CR :: LF :: (hblock ++ (CR :: LF :: CR :: LF
            :: (delimiter cfg ++ (DASH :: DASH :: epi)))))]
        = .ok [⟨parseHeaders hblock, []⟩]
      ∧ (⟨parseHeaders hblock, []⟩ : Part).payload.length = 0 := by
  refine ⟨?_, rfl⟩
  rw [parseMultipart_eq_flat]
  simp only [List.flatten_cons, List.flatten_nil, List.append_nil]
  have h := parseFlat_single_closed cfg hblock [] epi hcrH hH (by simp) (Nat.zero_le _)
  simpa using h

theorem empty_part_yielded_witness :
    (CR ∉ ([72] : List Nat)
      ∧ ([72] : List Nat).length ≤ (⟨[65], 10, 9⟩ : MPConfig).maxHeaderSize)
    ∧ parseMultipart ⟨[65], 10, 9⟩
        [dashBoundary ⟨[65], 10, 9⟩
          ++ (CR :: LF :: ([72] ++ (CR :: LF :: CR :: LF
            :: (delimiter ⟨[65], 10, 9⟩ ++ (DASH :: DASH :: [])))))]
        = .ok [⟨parseHeaders [72], []⟩]
    ∧ (⟨parseHeaders [72], []⟩ : Part).payload.length = 0 := by
  have h := empty_part_yielded ⟨[65], 10, 9⟩ [72] [] (by decide) (by decide)
  exact ⟨⟨by decide, by decide⟩, h.1, h.2⟩

/-- C8: a header line without a colon raises no error and does not suppress
the part: the part is yielded with its payload intact, the malformed line
is absent from the name-indexed mapping (every lookup on the part's headers
returns none), and the derived `name`, `filename` and `mediaType` accessors
are null. -/
theorem malformed_header_line_graceful (cfg : MPConfig) (line p epi nm : List Nat)
    (hcr : CR ∉ line) (hcolon : (58 : Nat) ∉ line)
    (hH : line.length ≤ cfg.maxHeaderSize)
    (hcrP : CR ∉ p) (hP : p.length ≤ cfg.maxFileSize) :
    parseMultipart cfg
        [dashBoundary cfg
          ++ (CR :: LF :: (line ++ (CR :: LF :: CR :: LF
            :: (p ++ (delimiter cfg ++ (DASH :: DASH :: epi))))))]
        = .ok [⟨parseHeaders line, p⟩]
      ∧ headerGet (parseHeaders line) nm = none
      ∧ (⟨parseHeaders line, p⟩ : Part).name = none
      ∧ (⟨parseHeaders line, p⟩ : Part).filename = none
      ∧ (⟨parseHeaders line, p⟩ : Part).mediaType = none := by
  have hparse := parseHeaders_no_colon hcr hcolon
  refine ⟨?_, ?_, ?_, ?_, ?_⟩
  · rw [parseMultipart_eq_flat]
    simp only [List.flatten_cons, List.flatten_nil, List.append_nil]
    exact parseFlat_single_closed cfg line p epi hcr hH hcrP hP
  · rw [hparse]
    exact headerGet_no_fields [line] nm
  · unfold Part.name
    rw [hparse]
    rfl
  · unfold Part.filename
    rw [hparse]
    rfl
  · unfold Part.mediaType
    rw [hparse]
    rfl

theorem malformed_header_line_graceful_witness :
    (CR ∉ ([72, 105] : List Nat) ∧ (58 : Nat) ∉ ([72, 105] : List Nat)
      ∧ ([72, 105] : List Nat).length ≤ (⟨[65], 10, 9⟩ : MPConfig).maxHeaderSize
      ∧ CR ∉ ([120] : List Nat)
      ∧ ([120] : List Nat).length ≤ (⟨[65], 10, 9⟩ : MPConfig).maxFileSize)
    ∧ parseMultipart ⟨[65], 10, 9⟩
        [dashBoundary ⟨[65], 10, 9⟩
          ++ (CR :: LF :: ([72, 105] ++ (CR :: LF :: CR :: LF
            :: ([120] ++ (delimiter ⟨[65], 10, 9⟩ ++ (DASH :: DASH :: []))))))]
        = .ok [⟨parseHeaders [72, 105], [120]⟩]
    ∧ headerGet (parseHeaders [72, 105]) [72, 105] = none
    ∧ (⟨parseHeaders [72, 105], [120]⟩ : Part).name = none
    ∧ (⟨parseHeaders [72, 105], [120]⟩ : Part).filename = none
    ∧ (⟨parseHeaders [72, 105], [120]⟩ : Part).mediaType = none := by
  have h := malformed_header_line_graceful ⟨[65], 10, 9⟩ [72, 105] [120] [] [72, 105]
    (by decide) (by decide) (by decide) (by decide) (by decide)
  exact ⟨⟨by decide, by decide, by decide, by decide, by decide⟩,
    h.1, h.2.1, h.2.2.1, h.2.2.2.1, h.2.2.2.2⟩

/-- C9: `concatChunks` returns the left-to-right concatenation of its
chunks: the length is the sum of the lengths, the byte at the offset of
chunk `j` plus `i` is byte `i` of chunk `j`, and the empty list yields the
empty array. -/
theorem concatChunks_correct (cs : List (List Nat)) (j i : Nat) (ch : List Nat)
    (hch : cs[j]? = some ch) (hi : i < ch.length) :
    (concatChunks cs).length = (cs.map List.length).sum
      ∧ (concatChunks cs)[(((cs.take j).map List.length).sum + i)]? = ch[i]?
      ∧ concatChunks [] = [] := by
  refine ⟨?_, ?_, rfl⟩
  · rw [concatChunks_eq_flatten, List.length_flatten]
  · rw [concatChunks_eq_flatten]
    exact flatten_getElem_offset cs j i ch hch hi

theorem concatChunks_correct_witness :
    (([[1, 2], [3, 4, 5]] : List (List Nat))[1]? = some [3, 4, 5]
      ∧ (1 : Nat) < ([3, 4, 5] : List Nat).length)
    ∧ (concatChunks [[1, 2], [3, 4, 5]]).length
        = (([[1, 2], [3, 4, 5]] : List (List Nat)).map List.length).sum
    ∧ (concatChunks [[1, 2], [3, 4, 5]])[((([[1, 2], [3, 4, 5]]
        : List (List Nat)).take 1).map List.length).sum + 1]?
        = ([3, 4, 5] : List Nat)[1]?
    ∧ concatChunks [] = [] := by
  have h := concatChunks_correct [[1, 2], [3, 4, 5]] 1 1 [3, 4, 5] (by decide) (by decide)
  exact ⟨⟨by decide, by decide⟩, h.1, h.2.1, h.2.2⟩

/-- C10: `stringToBinary` inverts `binaryToString` on every byte array:
mapping each byte (< 256, including bytes at or above 0x80) to the UTF-16
code unit with that value and back is the identity. -/
theorem binary_string_roundtrip (b : List Nat) (hb : ∀ x ∈ b, x < 256) :
    stringToBinary (binaryToString b) = b := by
  induction b with
  | nil => rfl
  | cons a t ih =>
    have ha : a < 256 := hb a (List.mem_cons_self a t)
    have ht : ∀ x ∈ t, x < 256 := fun x hx => hb x (List.mem_cons_of_mem a hx)
    have htail := ih ht
    simp only [binaryToString, stringToBinary, List.map_cons] at htail ⊢
    rw [htail]
    congr 1
    omega

theorem binary_string_roundtrip_witness :
    (∀ x ∈ ([0, 127, 128, 255] : List Nat), x < 256)
    ∧ stringToBinary (binaryToString [0, 127, 128, 255]) = [0, 127, 128, 255] :=
  ⟨by decide, binary_string_roundtrip [0, 127, 128, 255] (by decide)⟩

end Multipart
